import Mathlib

/-!
# Terminal dashboard (`dashboard/main.go`)

A shallow embedding of the sampling and rendering core of the dashboard:

* `updateData`   : one tick of the sampler, with the bounded `cpuUsageHistory`;
* `getColorBar`  : the coloured utilisation bar, with `colorCode`;
* `renderGraph`  : the CPU history chart.

Go `float64` values are modelled by `Float64`: a finite value carries its exact rational
value, every arithmetic operation computes the exact result and rounds it to binary64
(round to nearest, ties to even, gradual underflow, overflow to infinity).  The numeric
constants of the program text (`100`, `80`, `50`, `0.5`, ...) are all exactly representable
and are written `Float64.fin c`.  Go `int` values are integers; none of the integer
expressions of the program can wrap for inputs in the `int` range, and the theorems that
depend on that range say so.
-/

namespace Dashboard

/-! ## binary64 arithmetic -/

/-- A `float64`.  `fin q` is the finite value `q`; the two signed zeros are identified in
`fin 0`: comparisons, products, quotients by a non-zero divisor and the conversion to
`int` do not distinguish them, and the only divisors of the program are the constant
`100` and `float64(height-1)`, a converted integer, which is never the negative zero. -/
inductive Float64 where
  | nan
  | ninf
  | fin (q : ℚ)
  | pinf
  deriving DecidableEq

/-- Nearest integer, ties to the even one. -/
def roundHalfEven (q : ℚ) : ℤ :=
  let f := ⌊q⌋
  if q - f < 1 / 2 then f
  else if 1 / 2 < q - f then f + 1
  else if f % 2 = 0 then f else f + 1

/-- Exponent of the binade of a magnitude: `⌊log₂ q⌋`, not below the exponent `-1022`
of the subnormal range. -/
def binade (q : ℚ) : ℤ := max (Int.log 2 q) (-1022)

/-- Rounding of a magnitude `q ≥ 0` to 53 significant bits in its binade. -/
def roundMag (q : ℚ) : ℚ :=
  (roundHalfEven (q / 2 ^ (binade q - 52)) : ℚ) * 2 ^ (binade q - 52)

/-- Rounding to nearest-even with unbounded exponent range above: sign and magnitude. -/
def roundQ (q : ℚ) : ℚ := if q < 0 then -roundMag (-q) else roundMag q

/-- Rounding of an exact result to `float64`; a rounded magnitude of `2^1024` or more
overflows to an infinity. -/
def round64 (q : ℚ) : Float64 :=
  if (2 : ℚ) ^ (1024 : ℕ) ≤ roundQ q then Float64.pinf
  else if roundQ q ≤ -(2 : ℚ) ^ (1024 : ℕ) then Float64.ninf
  else Float64.fin (roundQ q)

namespace Float64

/-- Conversion `float64(n)` of an integer. -/
def ofInt (n : Int) : Float64 := round64 (n : ℚ)

/-- Conversion of a decimal constant such as `80.01` to `float64`. -/
def ofLit (q : ℚ) : Float64 := round64 q

/-- IEEE product `a * b`. -/
def mul : Float64 → Float64 → Float64
  | nan, _ => nan
  | _, nan => nan
  | fin a, fin b => round64 (a * b)
  | fin a, pinf => if a = 0 then nan else if 0 < a then pinf else ninf
  | fin a, ninf => if a = 0 then nan else if 0 < a then ninf else pinf
  | pinf, fin b => if b = 0 then nan else if 0 < b then pinf else ninf
  | ninf, fin b => if b = 0 then nan else if 0 < b then ninf else pinf
  | pinf, pinf => pinf
  | pinf, ninf => ninf
  | ninf, pinf => ninf
  | ninf, ninf => pinf

/-- IEEE quotient `a / b`.  Division by zero does not trap: `0 / 0` is NaN and a non-zero
value over (positive) zero is an infinity. -/
def div : Float64 → Float64 → Float64
  | nan, _ => nan
  | _, nan => nan
  | fin a, fin b =>
      if b = 0 then (if a = 0 then nan else if 0 < a then pinf else ninf)
      else round64 (a / b)
  | fin _, pinf => fin 0
  | fin _, ninf => fin 0
  | pinf, fin b => if b < 0 then ninf else pinf
  | ninf, fin b => if b < 0 then pinf else ninf
  | pinf, pinf => nan
  | pinf, ninf => nan
  | ninf, pinf => nan
  | ninf, ninf => nan

/-- IEEE comparison `a >= b`; false as soon as an operand is NaN. -/
def ge : Float64 → Float64 → Bool
  | nan, _ => false
  | _, nan => false
  | _, ninf => true
  | pinf, _ => true
  | ninf, fin _ => false
  | ninf, pinf => false
  | fin _, pinf => false
  | fin a, fin b => decide (b ≤ a)

/-- IEEE comparison `a > b`; false as soon as an operand is NaN. -/
def gt : Float64 → Float64 → Bool
  | nan, _ => false
  | _, nan => false
  | ninf, _ => false
  | _, pinf => false
  | pinf, ninf => true
  | pinf, fin _ => true
  | fin _, ninf => true
  | fin a, fin b => decide (b < a)

/-- IEEE comparison `a <= b`. -/
def le (a b : Float64) : Bool := ge b a

/-- Conversion `int(f)`: the fraction is discarded (truncation towards zero).  When the
truncated value does not fit a 64-bit `int`, or `f` is not finite, the conversion still
succeeds and Go leaves the result to the implementation: it is `indef f`. -/
def toInt (indef : Float64 → Int) (f : Float64) : Int :=
  match f with
  | fin q =>
      let t : Int := if 0 ≤ q then ⌊q⌋ else ⌈q⌉
      if -(2 : Int) ^ 63 ≤ t ∧ t < (2 : Int) ^ 63 then t else indef f
  | _ => indef f

end Float64

/-- Result of an out-of-range `int(f)` on amd64: the "integer indefinite" value. -/
def indefAmd64 : Float64 → Int := fun _ => -(2 : Int) ^ 63

/-! ## Library functions used by the program -/

/-- Largest `int`. -/
def maxInt : Int := 2 ^ 63 - 1

/-- Go `strings.Repeat(s, count)`: `count` copies of `s`.  It panics (`none`) when `count`
is negative or when the byte length of the result overflows an `int`. -/
def stringsRepeat (s : String) (count : Int) : Option String :=
  if count < 0 then none
  else if maxInt < (s.utf8ByteSize : Int) * count then none
  else some (String.join (List.replicate count.toNat s))

/-- The constants of package `gocui` that the program refers to.  An `Attribute` is an
unsigned integer made of a colour in its low byte and style bits above. -/
structure Gocui where
  ColorRed : Nat
  ColorYellow : Nat
  ColorGreen : Nat
  AttrBold : Nat

/-- What the program relies on: the three colours are distinct values of the low byte
(Go rejects a `switch` with duplicate constant cases) and the bold bit lies above it. -/
def Gocui.WellFormed (g : Gocui) : Prop :=
  g.ColorRed &&& 0xFF = g.ColorRed ∧ g.ColorYellow &&& 0xFF = g.ColorYellow ∧
  g.ColorGreen &&& 0xFF = g.ColorGreen ∧ g.AttrBold &&& 0xFF = 0 ∧
  g.ColorRed ≠ g.ColorYellow ∧ g.ColorRed ≠ g.ColorGreen ∧ g.ColorYellow ≠ g.ColorGreen

/-- The values these constants have in `gocui` (taken over from `termbox-go`). -/
def termbox : Gocui := { ColorRed := 2, ColorYellow := 4, ColorGreen := 3, AttrBold := 512 }

/-! ## State and `updateData` -/

structure Process where
  PID : Int
  Name : String
  CPU : Float64
  Memory : Float64
  Status : String
  deriving DecidableEq

def graphWidth : Nat := 76

def graphHeight : Nat := 10

/-- The package-level variables. -/
structure State where
  cpuUsage : Float64
  memoryUsage : Float64
  diskUsage : Float64
  networkIn : Int
  networkOut : Int
  processList : List Process
  cpuUsageHistory : List Float64

/-- The values at program start (Go zero values). -/
def initState : State :=
  { cpuUsage := Float64.fin 0, memoryUsage := Float64.fin 0, diskUsage := Float64.fin 0,
    networkIn := 0, networkOut := 0, processList := [], cpuUsageHistory := [] }

/-- The results of the calls to `math/rand` made by one `updateData`, in call order. -/
structure RandDraws where
  cpu : Float64
  memory : Float64
  disk : Float64
  netIn : Int
  netOut : Int
  dockerCPU : Float64
  dockerMem : Float64
  goAppCPU : Float64
  goAppMem : Float64
  nginxCPU : Float64
  nginxMem : Float64
  dbCPU : Float64
  dbMem : Float64

/-- The append-with-eviction step of `updateData` (lines 85-88): append, then drop the
oldest element when the length exceeds `graphWidth`. -/
def appendHistory (history : List Float64) (v : Float64) : List Float64 :=
  let appended := history ++ [v]
  if appended.length > graphWidth then appended.drop 1 else appended

/-- The CPU value sampled in a tick (line 72): `rand.Float64() * 100`. -/
def cpuSample (r : RandDraws) : Float64 := Float64.mul r.cpu (Float64.fin 100)

/-- One tick: `updateData`, given the random draws it makes. -/
def updateData (s : State) (r : RandDraws) : State :=
  let cpuUsage := cpuSample r
  { cpuUsage := cpuUsage
    memoryUsage := Float64.mul r.memory (Float64.fin 100)
    diskUsage := Float64.mul r.disk (Float64.fin 100)
    networkIn := r.netIn
    networkOut := r.netOut
    processList :=
      [ { PID := 1, Name := "docker", CPU := Float64.mul r.dockerCPU (Float64.fin (1 / 2)),
          Memory := Float64.mul r.dockerMem (Float64.fin 1), Status := "Running" },
        { PID := 123, Name := "go-app", CPU := Float64.mul r.goAppCPU (Float64.fin 15),
          Memory := Float64.mul r.goAppMem (Float64.fin 5), Status := "Running" },
        { PID := 456, Name := "nginx", CPU := Float64.mul r.nginxCPU (Float64.fin 2),
          Memory := Float64.mul r.nginxMem (Float64.fin (3 / 2)), Status := "Running" },
        { PID := 789, Name := "db-server", CPU := Float64.mul r.dbCPU (Float64.fin 10),
          Memory := Float64.mul r.dbMem (Float64.fin 8), Status := "Running" } ]
    cpuUsageHistory := appendHistory s.cpuUsageHistory cpuUsage }

/-! ## `getColorBar` and `colorCode` -/

def barLen : Int := 10

/-- The local `filled` of `getColorBar`: `int(percentage / 100 * float64(barLen))`. -/
def filledCells (indef : Float64 → Int) (percentage : Float64) : Int :=
  Float64.toInt indef
    (Float64.mul (Float64.div percentage (Float64.fin 100)) (Float64.ofInt barLen))

/-- The local `color` of `getColorBar`: the `switch` on the percentage. -/
def bandColor (g : Gocui) (percentage : Float64) : Nat :=
  if Float64.gt percentage (Float64.fin 80) then g.ColorRed ||| g.AttrBold
  else if Float64.gt percentage (Float64.fin 50) then g.ColorYellow ||| g.AttrBold
  else g.ColorGreen ||| g.AttrBold

/-- The local `bar` of `getColorBar`; `none` when a `strings.Repeat` panics. -/
def colorBar (filled : Int) : Option String := do
  let full ← stringsRepeat "█" filled
  let blank ← stringsRepeat " " (barLen - filled)
  pure (full ++ blank)

def colorCode (g : Gocui) (c : Nat) : Int :=
  if c &&& 0xFF = g.ColorRed then 31
  else if c &&& 0xFF = g.ColorYellow then 33
  else if c &&& 0xFF = g.ColorGreen then 32
  else 0

def getColorBar (g : Gocui) (indef : Float64 → Int) (percentage : Float64) : Option String := do
  let bar ← colorBar (filledCells indef percentage)
  pure ("\x1b[38;5;" ++ toString (colorCode g (bandColor g percentage)) ++ "m" ++ bar ++ "\x1b[0m")

/-! ## `renderGraph` -/

/-- The local `thresh` of row `y`: `float64(height-y-1) * 100 / float64(height-1)`. -/
def thresh (height y : Int) : Float64 :=
  Float64.div (Float64.mul (Float64.ofInt (height - y - 1)) (Float64.fin 100))
    (Float64.ofInt (height - 1))

/-- The rational value of `thresh height y` when no operation overflows (which is the
case for every `height` in the `int` range, see `thresh_eq`). -/
def threshQ (height y : Int) : ℚ :=
  roundQ (roundQ (roundQ ((height - y - 1 : Int) : ℚ) * 100) / roundQ ((height - 1 : Int) : ℚ))

/-- The local `val` of column `x`: `history[histIdx]` when `histIdx` is a valid index,
and `0` otherwise. -/
def histVal (history : List Float64) (width x : Int) : Float64 :=
  if h : 0 ≤ (history.length : Int) - width + x ∧
      (history.length : Int) - width + x < (history.length : Int) then
    history.get ⟨((history.length : Int) - width + x).toNat, by omega⟩
  else Float64.fin 0

/-- The test `val >= thresh` of the cell in row `y`, column `x`. -/
def cellOn (history : List Float64) (width height y x : Int) : Bool :=
  Float64.ge (histVal history width x) (thresh height y)

/-- The inner loop: the `strings.Builder` of row `y` after columns `0 .. width-1`. -/
def renderRow (history : List Float64) (width height y : Int) : String :=
  (List.range width.toNat).foldl
    (fun (row : String) (x : Nat) =>
      row ++ (if cellOn history width height y (x : Int) then "█" else " ")) ""

/-- The slice `lines` at the end of the outer loop. -/
def renderLines (history : List Float64) (width height : Int) : List String :=
  (List.range height.toNat).map (fun (y : Nat) => renderRow history width height (y : Int))

/-- The chart; `none` when `make([]string, height)` panics on a negative length. -/
def renderGraph (history : List Float64) (width height : Int) : Option String :=
  if height < 0 then none
  else some (String.intercalate "\n" (renderLines history width height))

/-- The glyph at row `y`, column `x` of a list of rows. -/
def glyphAt (rows : List String) (y x : Nat) : Option Char :=
  match rows[y]? with
  | some row => row.data[x]?
  | none => none

/-! ## Rounding: monotonicity and exactness -/

theorem roundHalfEven_intCast (n : ℤ) : roundHalfEven (n : ℚ) = n := by
  simp [roundHalfEven]

theorem floor_le_roundHalfEven (q : ℚ) : ⌊q⌋ ≤ roundHalfEven q := by
  unfold roundHalfEven
  simp only
  split_ifs <;> omega

theorem roundHalfEven_le_floor_succ (q : ℚ) : roundHalfEven q ≤ ⌊q⌋ + 1 := by
  unfold roundHalfEven
  simp only
  split_ifs <;> omega

theorem roundHalfEven_mono {a b : ℚ} (h : a ≤ b) : roundHalfEven a ≤ roundHalfEven b := by
  have hf : ⌊a⌋ ≤ ⌊b⌋ := Int.floor_mono h
  rcases lt_or_eq_of_le hf with hlt | heq
  · calc roundHalfEven a ≤ ⌊a⌋ + 1 := roundHalfEven_le_floor_succ a
      _ ≤ ⌊b⌋ := hlt
      _ ≤ roundHalfEven b := floor_le_roundHalfEven b
  · unfold roundHalfEven
    simp only
    rw [heq]
    split_ifs <;> first | omega | (exfalso; linarith)

theorem binade_mono {a b : ℚ} (ha : 0 < a) (h : a ≤ b) : binade a ≤ binade b :=
  max_le_max (Int.log_mono_right ha h) le_rfl

theorem two_zpow_pos (e : ℤ) : (0 : ℚ) < 2 ^ e := zpow_pos (by norm_num) e

theorem intPow_mul_zpow (n : ℕ) (e : ℤ) : (((2 : ℤ) ^ n : ℤ) : ℚ) * 2 ^ e = 2 ^ (e + n) := by
  rw [Int.cast_pow, Int.cast_ofNat, ← zpow_natCast, ← zpow_add₀ (by norm_num : (2 : ℚ) ≠ 0)]
  congr 1; ring

theorem roundMag_zero : roundMag 0 = 0 := by
  simp [roundMag, roundHalfEven]

theorem roundMag_nonneg {q : ℚ} (h : 0 ≤ q) : 0 ≤ roundMag q := by
  unfold roundMag
  apply mul_nonneg _ (two_zpow_pos _).le
  have h1 : (0 : ℚ) ≤ q / 2 ^ (binade q - 52) := div_nonneg h (two_zpow_pos _).le
  have h2 := roundHalfEven_mono h1
  have h3 : roundHalfEven ((0 : ℤ) : ℚ) = 0 := roundHalfEven_intCast 0
  simp only [Int.cast_zero] at h3
  rw [h3] at h2
  exact_mod_cast h2

/-- In the normal range the rounded magnitude stays inside the closed binade. -/
theorem roundMag_ge_zpow {q : ℚ} (hq : 0 < q) (hb : binade q = Int.log 2 q) :
    (2 : ℚ) ^ binade q ≤ roundMag q := by
  have hlog : (2 : ℚ) ^ binade q ≤ q := by
    rw [hb]; exact_mod_cast Int.zpow_log_le_self (R := ℚ) (b := 2) (by norm_num) hq
  have hs := two_zpow_pos (binade q - 52)
  have h1 : (((2 ^ 52 : ℤ)) : ℚ) ≤ q / 2 ^ (binade q - 52) := by
    rw [le_div_iff₀ hs]
    have : (((2 ^ 52 : ℤ)) : ℚ) * 2 ^ (binade q - 52) = 2 ^ binade q := by
      rw [intPow_mul_zpow]; congr 1; push_cast; ring
    rw [this]; exact hlog
  have h2 := roundHalfEven_mono h1
  rw [roundHalfEven_intCast] at h2
  unfold roundMag
  have h3 : ((2 ^ 52 : ℤ) : ℚ) ≤ (roundHalfEven (q / 2 ^ (binade q - 52)) : ℚ) := by exact_mod_cast h2
  calc (2 : ℚ) ^ binade q = ((2 ^ 52 : ℤ) : ℚ) * 2 ^ (binade q - 52) := by
        rw [intPow_mul_zpow]; congr 1; push_cast; ring
    _ ≤ _ := mul_le_mul_of_nonneg_right h3 hs.le

theorem roundMag_le_zpow_succ {q : ℚ} : roundMag q ≤ (2 : ℚ) ^ (binade q + 1) := by
  have hlog : q < (2 : ℚ) ^ (binade q + 1) := by
    have h1 : q < (2 : ℚ) ^ (Int.log 2 q + 1) := by
      exact_mod_cast Int.lt_zpow_succ_log_self (R := ℚ) (b := 2) (by norm_num) q
    have h2 : (2 : ℚ) ^ (Int.log 2 q + 1) ≤ 2 ^ (binade q + 1) :=
      zpow_le_zpow_right₀ (by norm_num) (by unfold binade; have := le_max_left (Int.log 2 q) (-1022); omega)
    exact lt_of_lt_of_le h1 h2
  have hs := two_zpow_pos (binade q - 52)
  have hsplit : (((2 ^ 53 : ℤ)) : ℚ) * 2 ^ (binade q - 52) = 2 ^ (binade q + 1) := by
    rw [intPow_mul_zpow]; congr 1; push_cast; ring
  have h1 : q / 2 ^ (binade q - 52) ≤ (((2 ^ 53 : ℤ)) : ℚ) := by
    rw [div_le_iff₀ hs, hsplit]; exact hlog.le
  have h2 := roundHalfEven_mono h1
  rw [roundHalfEven_intCast] at h2
  unfold roundMag
  have h3 : (roundHalfEven (q / 2 ^ (binade q - 52)) : ℚ) ≤ ((2 ^ 53 : ℤ) : ℚ) := by exact_mod_cast h2
  calc _ ≤ ((2 ^ 53 : ℤ) : ℚ) * 2 ^ (binade q - 52) := mul_le_mul_of_nonneg_right h3 hs.le
    _ = _ := hsplit

theorem roundMag_mono {a b : ℚ} (ha : 0 ≤ a) (h : a ≤ b) : roundMag a ≤ roundMag b := by
  rcases eq_or_lt_of_le ha with h0 | hpos
  · rw [← h0, roundMag_zero]; exact roundMag_nonneg (le_trans ha h)
  · have hb : 0 < b := lt_of_lt_of_le hpos h
    rcases eq_or_lt_of_le (binade_mono hpos h) with heq | hlt
    · unfold roundMag
      rw [heq]
      have hs := two_zpow_pos (binade b - 52)
      apply mul_le_mul_of_nonneg_right _ hs.le
      have := roundHalfEven_mono (div_le_div_of_nonneg_right h hs.le)
      exact_mod_cast this
    · have hbl : binade b = Int.log 2 b := by
        unfold binade at hlt ⊢
        have := le_max_right (Int.log 2 a) (-1022)
        rcases max_cases (Int.log 2 b) (-1022) with ⟨h1, _⟩ | ⟨h1, _⟩
        · exact h1
        · omega
      calc roundMag a ≤ 2 ^ (binade a + 1) := roundMag_le_zpow_succ
        _ ≤ 2 ^ binade b := zpow_le_zpow_right₀ (by norm_num) (by omega)
        _ ≤ roundMag b := roundMag_ge_zpow hb hbl

theorem binade_sub_le {m : ℕ} {k : ℤ} (hm0 : 0 < m) (hm : m < 2 ^ 53) (hk : -1074 ≤ k) :
    binade ((m : ℚ) * 2 ^ k) - 52 ≤ k := by
  have hq : (0 : ℚ) < (m : ℚ) * 2 ^ k := mul_pos (by exact_mod_cast hm0) (two_zpow_pos k)
  have hlt : (m : ℚ) * 2 ^ k < ((2 : ℕ) : ℚ) ^ (k + 53) := by
    have h1 : (m : ℚ) < (((2 : ℤ) ^ 53 : ℤ) : ℚ) := by exact_mod_cast hm
    have h2 := mul_lt_mul_of_pos_right h1 (two_zpow_pos k)
    rw [intPow_mul_zpow] at h2
    exact_mod_cast h2
  have hlog := (Int.lt_zpow_iff_log_lt (R := ℚ) (b := 2) (by norm_num) hq).1 hlt
  unfold binade
  rcases max_cases (Int.log 2 ((m : ℚ) * 2 ^ k)) (-1022) with ⟨h1, _⟩ | ⟨h1, _⟩ <;> rw [h1] <;> omega

theorem roundMag_dyadic (m : ℕ) (k : ℤ) (hm : m < 2 ^ 53) (hk : -1074 ≤ k) :
    roundMag ((m : ℚ) * 2 ^ k) = (m : ℚ) * 2 ^ k := by
  rcases Nat.eq_zero_or_pos m with h0 | hm0
  · subst h0; simp [roundMag_zero]
  · have hle := binade_sub_le hm0 hm hk
    unfold roundMag
    generalize binade ((m : ℚ) * 2 ^ k) - 52 = s at hle ⊢
    obtain ⟨d, hd⟩ : ∃ d : ℕ, k = s + d := ⟨(k - s).toNat, by omega⟩
    have hdiv : (m : ℚ) * 2 ^ k / 2 ^ s = (((m : ℤ) * 2 ^ d : ℤ) : ℚ) := by
      rw [hd, zpow_add₀ (by norm_num : (2 : ℚ) ≠ 0), zpow_natCast]
      have := (two_zpow_pos s).ne'
      field_simp
      ring
    rw [hdiv, roundHalfEven_intCast, hd, zpow_add₀ (by norm_num : (2 : ℚ) ≠ 0), zpow_natCast]
    push_cast
    ring

theorem roundQ_of_nonneg {q : ℚ} (h : 0 ≤ q) : roundQ q = roundMag q := by
  unfold roundQ
  rw [if_neg (not_lt.mpr h)]

theorem roundQ_nonneg {q : ℚ} (h : 0 ≤ q) : 0 ≤ roundQ q := by
  rw [roundQ_of_nonneg h]; exact roundMag_nonneg h

theorem roundQ_mono {a b : ℚ} (h : a ≤ b) : roundQ a ≤ roundQ b := by
  unfold roundQ
  split_ifs with ha hb hb
  · exact neg_le_neg (roundMag_mono (by linarith) (by linarith))
  · exact le_trans (neg_nonpos.mpr (roundMag_nonneg (by linarith))) (roundMag_nonneg (by linarith))
  · exfalso; linarith
  · exact roundMag_mono (by linarith) h

theorem roundQ_dyadic (m : ℕ) (k : ℤ) (hm : m < 2 ^ 53) (hk : -1074 ≤ k) :
    roundQ ((m : ℚ) * 2 ^ k) = (m : ℚ) * 2 ^ k := by
  rw [roundQ_of_nonneg (mul_nonneg (Nat.cast_nonneg m) (two_zpow_pos k).le)]
  exact roundMag_dyadic m k hm hk

theorem roundQ_natCast (n : ℕ) (hn : n < 2 ^ 53) : roundQ (n : ℚ) = n := by
  have := roundQ_dyadic n 0 hn (by norm_num)
  simpa using this

theorem roundQ_two_pow (n : ℕ) : roundQ ((2 : ℚ) ^ n) = 2 ^ n := by
  have := roundQ_dyadic 1 n (by norm_num) (by omega)
  simpa using this

theorem roundQ_le_two_pow {q : ℚ} (n : ℕ) (h : q ≤ 2 ^ n) : roundQ q ≤ 2 ^ n := by
  have := roundQ_mono h
  rwa [roundQ_two_pow] at this

theorem round64_eq_fin {q : ℚ} (n : ℕ) (hn : n ≤ 1023) (h0 : 0 ≤ q) (h : q ≤ 2 ^ n) :
    round64 q = Float64.fin (roundQ q) := by
  have hp : (2 : ℚ) ^ n ≤ 2 ^ 1023 := pow_le_pow_right₀ (by norm_num) hn
  have h1 : roundQ q ≤ 2 ^ 1023 := roundQ_le_two_pow 1023 (le_trans h hp)
  have h2 : 0 ≤ roundQ q := roundQ_nonneg h0
  unfold round64
  rw [if_neg, if_neg]
  · intro hc; linarith [show (0 : ℚ) < 2 ^ 1024 by positivity]
  · intro hc
    have : (2 : ℚ) ^ 1023 < 2 ^ 1024 := by norm_num
    linarith

/-! ## The history buffer -/

theorem appendHistory_drop (l : List Float64) (v : Float64) :
    appendHistory (l.drop (l.length - graphWidth)) v
      = (l ++ [v]).drop ((l ++ [v]).length - graphWidth) := by
  have hW : graphWidth = 76 := rfl
  unfold appendHistory
  simp only [List.length_append, List.length_drop, List.length_singleton, List.drop_drop]
  by_cases h : l.length < graphWidth
  · have h1 : l.length - graphWidth = 0 := by omega
    have h2 : l.length + 1 - graphWidth = 0 := by omega
    rw [h1, h2, if_neg (by omega)]
    simp
  · have h3 : l.length + 1 - graphWidth ≤ l.length := by omega
    have h4 : 1 ≤ (l.drop (l.length - graphWidth)).length := by
      rw [List.length_drop]; omega
    rw [if_pos (by omega), List.drop_append_of_le_length h4, List.drop_append_of_le_length h3,
      List.drop_drop]
    congr 2
    omega

theorem history_foldl (rs : List RandDraws) (s : State) (h : s.cpuUsageHistory = []) :
    (rs.foldl updateData s).cpuUsageHistory
      = (rs.map cpuSample).drop ((rs.map cpuSample).length - graphWidth) := by
  induction rs using List.reverseRecOn with
  | nil => simpa using h
  | append_singleton rs r ih =>
    rw [List.foldl_append, List.map_append]
    simp only [List.foldl_cons, List.foldl_nil, List.map_cons, List.map_nil]
    show appendHistory (rs.foldl updateData s).cpuUsageHistory (cpuSample r) = _
    rw [ih, appendHistory_drop]

theorem appendHistory_getLast (l : List Float64) (v : Float64) :
    (appendHistory l v).getLast? = some v := by
  unfold appendHistory
  simp only [List.length_append, List.length_singleton]
  split_ifs with h
  · cases l with
    | nil => simp [graphWidth] at h
    | cons a t => simp
  · simp

/-! ## The colour bar -/

theorem mask_or_bold {c b : Nat} (hc : c &&& 0xFF = c) (hb : b &&& 0xFF = 0) :
    (c ||| b) &&& 0xFF = c := by
  rw [Nat.and_distrib_right, hc, hb, Nat.or_zero]

theorem ofInt_barLen : Float64.ofInt barLen = Float64.fin 10 := by
  unfold Float64.ofInt barLen
  have h := roundQ_natCast 10 (by norm_num)
  rw [round64_eq_fin 4 (by norm_num) (by norm_num) (by norm_num)]
  norm_num at h ⊢
  exact h

/-- The two roundings made by `percentage / 100 * float64(barLen)`. -/
theorem scaled_bounds {a : ℚ} (h0 : 0 ≤ a) (h1 : a ≤ 1000) :
    0 ≤ roundQ (a / 100) ∧ roundQ (a / 100) ≤ 10 ∧
    0 ≤ roundQ (roundQ (a / 100) * 10) ∧ roundQ (roundQ (a / 100) * 10) ≤ 100 := by
  have e10 : roundQ 10 = 10 := by simpa using roundQ_natCast 10 (by norm_num)
  have e100 : roundQ 100 = 100 := by simpa using roundQ_natCast 100 (by norm_num)
  have a1 : 0 ≤ roundQ (a / 100) := roundQ_nonneg (by positivity)
  have a2 : roundQ (a / 100) ≤ 10 := by
    have := roundQ_mono (show a / 100 ≤ 10 by linarith)
    rwa [e10] at this
  have a3 : 0 ≤ roundQ (roundQ (a / 100) * 10) := roundQ_nonneg (by positivity)
  have a4 : roundQ (roundQ (a / 100) * 10) ≤ 100 := by
    have := roundQ_mono (show roundQ (a / 100) * 10 ≤ 100 by linarith)
    rwa [e100] at this
  exact ⟨a1, a2, a3, a4⟩

theorem filledCells_fin (indef : Float64 → Int) {a : ℚ} (h0 : 0 ≤ a) (h1 : a ≤ 1000) :
    filledCells indef (Float64.fin a) = ⌊roundQ (roundQ (a / 100) * 10)⌋ := by
  obtain ⟨a1, a2, a3, a4⟩ := scaled_bounds h0 h1
  have hd : Float64.div (Float64.fin a) (Float64.fin 100) = Float64.fin (roundQ (a / 100)) := by
    simp only [Float64.div]
    rw [if_neg (by norm_num),
      round64_eq_fin 4 (by norm_num) (by positivity) (by norm_num; linarith)]
  have hm : Float64.mul (Float64.fin (roundQ (a / 100))) (Float64.fin 10)
      = Float64.fin (roundQ (roundQ (a / 100) * 10)) := by
    simp only [Float64.mul]
    rw [round64_eq_fin 7 (by norm_num) (by positivity) (by norm_num; linarith)]
  unfold filledCells
  rw [ofInt_barLen, hd, hm]
  simp only [Float64.toInt]
  rw [if_pos a3]
  have f0 : 0 ≤ ⌊roundQ (roundQ (a / 100) * 10)⌋ := Int.floor_nonneg.mpr a3
  have f1 : ⌊roundQ (roundQ (a / 100) * 10)⌋ ≤ 100 := by
    have := Int.floor_mono a4
    simpa using this
  rw [if_pos ⟨by omega, by omega⟩]

theorem flatten_replicate_singleton (c : Char) (k : Nat) :
    (List.replicate k [c]).flatten = List.replicate k c := by
  induction k with
  | zero => rfl
  | succ k ih => simp [List.replicate_succ, ih]

theorem stringsRepeat_char (c : Char) (n : Int) (h0 : 0 ≤ n)
    (h : ((String.mk [c]).utf8ByteSize : Int) * n ≤ maxInt) :
    stringsRepeat (String.mk [c]) n = some (String.mk (List.replicate n.toNat c)) := by
  unfold stringsRepeat
  rw [if_neg (by omega), if_neg (by omega), String.join_eq, List.map_replicate,
    flatten_replicate_singleton]

theorem stringsRepeat_neg (s : String) (n : Int) (h : n < 0) : stringsRepeat s n = none := by
  unfold stringsRepeat
  rw [if_pos h]

theorem colorBar_of_mem (f : Int) (h0 : 0 ≤ f) (h1 : f ≤ barLen) :
    colorBar f = some (String.mk
      (List.replicate f.toNat (Char.ofNat 0x2588) ++ List.replicate (barLen - f).toNat (Char.ofNat 32))) := by
  have hb : barLen = 10 := rfl
  have e1 : stringsRepeat "█" f = some (String.mk (List.replicate f.toNat (Char.ofNat 0x2588))) := by
    apply stringsRepeat_char (Char.ofNat 0x2588) f h0
    have : (String.mk [Char.ofNat 0x2588]).utf8ByteSize = 3 := by decide
    rw [this]; unfold maxInt; omega
  have e2 : stringsRepeat " " (barLen - f)
      = some (String.mk (List.replicate (barLen - f).toNat (Char.ofNat 32))) := by
    apply stringsRepeat_char (Char.ofNat 32) (barLen - f) (by omega)
    have : (String.mk [Char.ofNat 32]).utf8ByteSize = 1 := by decide
    rw [this]; unfold maxInt; omega
  unfold colorBar
  rw [e1, e2]
  rfl

theorem roundQ_ofNat (n : ℕ) [n.AtLeastTwo] (hn : n < 2 ^ 53) :
    roundQ (OfNat.ofNat n : ℚ) = OfNat.ofNat n := by
  have := roundQ_natCast n hn
  simpa using this

theorem filledCells_mono (indef : Float64 → Int) {a b : ℚ} (h0 : 0 ≤ a) (hab : a ≤ b)
    (h1 : b ≤ 1000) : filledCells indef (Float64.fin a) ≤ filledCells indef (Float64.fin b) := by
  rw [filledCells_fin indef h0 (le_trans hab h1), filledCells_fin indef (le_trans h0 hab) h1]
  apply Int.floor_mono
  apply roundQ_mono
  apply mul_le_mul_of_nonneg_right _ (by norm_num)
  apply roundQ_mono
  linarith

theorem filledCells_zero (indef : Float64 → Int) : filledCells indef (Float64.fin 0) = 0 := by
  rw [filledCells_fin indef le_rfl (by norm_num)]
  have e0 : roundQ 0 = 0 := by simpa using roundQ_natCast 0 (by norm_num)
  simp [e0]

theorem filledCells_hundred (indef : Float64 → Int) :
    filledCells indef (Float64.fin 100) = 10 := by
  rw [filledCells_fin indef (by norm_num) (by norm_num)]
  have e1 : roundQ 1 = 1 := by simpa using roundQ_natCast 1 (by norm_num)
  have e10 : roundQ 10 = 10 := roundQ_ofNat 10 (by norm_num)
  norm_num [e1, e10]

theorem filledCells_two_hundred (indef : Float64 → Int) :
    filledCells indef (Float64.fin 200) = 20 := by
  rw [filledCells_fin indef (by norm_num) (by norm_num)]
  have e2 : roundQ 2 = 2 := roundQ_ofNat 2 (by norm_num)
  have e20 : roundQ 20 = 20 := roundQ_ofNat 20 (by norm_num)
  norm_num [e2, e20]

/-- A `float64` between `0` and `100` for the IEEE comparisons is a finite value. -/
theorem fin_of_between {p : Float64} (h0 : Float64.ge p (Float64.fin 0) = true)
    (h1 : Float64.le p (Float64.fin 100) = true) :
    ∃ a : ℚ, p = Float64.fin a ∧ 0 ≤ a ∧ a ≤ 100 := by
  cases p with
  | nan => simp [Float64.ge] at h0
  | ninf => simp [Float64.ge] at h0
  | pinf => simp [Float64.le, Float64.ge] at h1
  | fin a =>
    refine ⟨a, rfl, ?_, ?_⟩
    · simpa [Float64.ge] using h0
    · simpa [Float64.le, Float64.ge] using h1

theorem le_fin_iff {a b : ℚ} : Float64.le (Float64.fin a) (Float64.fin b) = true ↔ a ≤ b := by
  simp [Float64.le, Float64.ge]

/-! ## The chart: rows and glyphs -/

theorem foldl_glyph_data (f : Nat → Bool) (l : List Nat) (acc : String) :
    (l.foldl (fun row x => row ++ (if f x then "█" else " ")) acc).data
      = acc.data ++ l.map (fun x => if f x then Char.ofNat 0x2588 else Char.ofNat 32) := by
  induction l generalizing acc with
  | nil => simp
  | cons x t ih =>
    rw [List.foldl_cons, ih, List.map_cons, String.data_append]
    cases f x <;> simp

theorem renderRow_data (history : List Float64) (width height y : Int) :
    (renderRow history width height y).data
      = (List.range width.toNat).map
          (fun (x : Nat) => if cellOn history width height y (x : Int) then Char.ofNat 0x2588
            else Char.ofNat 32) := by
  unfold renderRow
  rw [foldl_glyph_data (fun (x : Nat) => cellOn history width height y (x : Int))]
  rfl

theorem renderRow_length (history : List Float64) (width height y : Int) :
    (renderRow history width height y).length = width.toNat := by
  rw [String.length, renderRow_data, List.length_map, List.length_range]

theorem renderLines_length (history : List Float64) (width height : Int) :
    (renderLines history width height).length = height.toNat := by
  unfold renderLines
  rw [List.length_map, List.length_range]

theorem renderLines_get (history : List Float64) (width height : Int) {y : Nat}
    (hy : y < height.toNat) :
    (renderLines history width height)[y]? = some (renderRow history width height (y : Int)) := by
  unfold renderLines
  rw [List.getElem?_map, List.getElem?_range hy]
  rfl

theorem glyphAt_renderLines (history : List Float64) (width height : Int) {y x : Nat}
    (hy : y < height.toNat) (hx : x < width.toNat) :
    glyphAt (renderLines history width height) y x
      = some (if cellOn history width height (y : Int) (x : Int) then Char.ofNat 0x2588
          else Char.ofNat 32) := by
  unfold glyphAt
  rw [renderLines_get history width height hy]
  simp only
  rw [renderRow_data, List.getElem?_map, List.getElem?_range hx]
  rfl

theorem glyphAt_on_iff (history : List Float64) (width height : Int) {y x : Nat}
    (hy : y < height.toNat) (hx : x < width.toNat) :
    glyphAt (renderLines history width height) y x = some (Char.ofNat 0x2588)
      ↔ cellOn history width height (y : Int) (x : Int) = true := by
  rw [glyphAt_renderLines history width height hy hx]
  cases cellOn history width height (y : Int) (x : Int) <;> simp

theorem glyphAt_off_iff (history : List Float64) (width height : Int) {y x : Nat}
    (hy : y < height.toNat) (hx : x < width.toNat) :
    glyphAt (renderLines history width height) y x = some (Char.ofNat 32)
      ↔ cellOn history width height (y : Int) (x : Int) = false := by
  rw [glyphAt_renderLines history width height hy hx]
  cases cellOn history width height (y : Int) (x : Int) <;> simp

/-! ## The chart: thresholds -/

theorem roundQ_zero : roundQ 0 = 0 := by
  simpa using roundQ_natCast 0 (by norm_num)

theorem roundQ_one : roundQ 1 = 1 := by
  simpa using roundQ_natCast 1 (by norm_num)

theorem cast_le_two_pow {n : Int} (h : n ≤ maxInt) : (n : ℚ) ≤ 2 ^ 63 := by
  have h1 : n ≤ (2 : Int) ^ 63 := by unfold maxInt at h; omega
  have h2 : ((n : Int) : ℚ) ≤ (((2 : Int) ^ 63 : Int) : ℚ) := Int.cast_le.mpr h1
  simpa using h2

theorem ofInt_eq_fin {n : Int} (h0 : 0 ≤ n) (h : n ≤ maxInt) :
    Float64.ofInt n = Float64.fin (roundQ (n : ℚ)) := by
  unfold Float64.ofInt
  exact round64_eq_fin 63 (by norm_num) (Int.cast_nonneg.mpr h0) (cast_le_two_pow h)

theorem roundQ_cast_bounds {n : Int} (h0 : 0 ≤ n) (h : n ≤ maxInt) :
    0 ≤ roundQ (n : ℚ) ∧ roundQ (n : ℚ) ≤ 2 ^ 63 ∧ (1 ≤ n → 1 ≤ roundQ (n : ℚ)) := by
  refine ⟨roundQ_nonneg (Int.cast_nonneg.mpr h0), roundQ_le_two_pow 63 (cast_le_two_pow h), ?_⟩
  intro h1
  have : (1 : ℚ) ≤ (n : ℚ) := by exact_mod_cast h1
  have := roundQ_mono this
  rwa [roundQ_one] at this

theorem thresh_eq {height y : Int} (hh : 2 ≤ height) (hmax : height ≤ maxInt) (hy0 : 0 ≤ y)
    (hy : y < height) : thresh height y = Float64.fin (threshQ height y) := by
  obtain ⟨a0, a1, -⟩ := roundQ_cast_bounds (show 0 ≤ height - y - 1 by omega)
    (show height - y - 1 ≤ maxInt by omega)
  obtain ⟨c0, c1, c2⟩ := roundQ_cast_bounds (show 0 ≤ height - 1 by omega)
    (show height - 1 ≤ maxInt by omega)
  have c3 : 1 ≤ roundQ ((height - 1 : Int) : ℚ) := c2 (by omega)
  have hb1 : roundQ ((height - y - 1 : Int) : ℚ) * 100 ≤ 2 ^ 70 := by
    have : (2 : ℚ) ^ 70 = 2 ^ 63 * 128 := by norm_num
    rw [this]
    nlinarith
  have b0 : 0 ≤ roundQ (roundQ ((height - y - 1 : Int) : ℚ) * 100) :=
    roundQ_nonneg (by positivity)
  have b1 : roundQ (roundQ ((height - y - 1 : Int) : ℚ) * 100) ≤ 2 ^ 70 :=
    roundQ_le_two_pow 70 hb1
  have hq : roundQ (roundQ ((height - y - 1 : Int) : ℚ) * 100) / roundQ ((height - 1 : Int) : ℚ)
      ≤ 2 ^ 70 := by
    rw [div_le_iff₀ (by linarith)]
    nlinarith
  unfold thresh threshQ
  rw [ofInt_eq_fin (show 0 ≤ height - y - 1 by omega) (show height - y - 1 ≤ maxInt by omega),
    ofInt_eq_fin (show 0 ≤ height - 1 by omega) (show height - 1 ≤ maxInt by omega)]
  simp only [Float64.mul]
  rw [round64_eq_fin 70 (by norm_num) (by positivity) hb1]
  simp only [Float64.div]
  rw [if_neg (by linarith), round64_eq_fin 70 (by norm_num) (by positivity) hq]

theorem threshQ_antitone {height y y' : Int} (hh : 1 ≤ height) (hyy : y ≤ y') :
    threshQ height y' ≤ threshQ height y := by
  unfold threshQ
  apply roundQ_mono
  apply div_le_div_of_nonneg_right _ (roundQ_nonneg (Int.cast_nonneg.mpr (by omega)))
  apply roundQ_mono
  apply mul_le_mul_of_nonneg_right _ (by norm_num)
  apply roundQ_mono
  exact Int.cast_le.mpr (by omega)

theorem threshQ_bottom (height : Int) : threshQ height (height - 1) = 0 := by
  unfold threshQ
  have : height - (height - 1) - 1 = 0 := by omega
  rw [this]
  simp [roundQ_zero]

theorem threshQ_pos {height y : Int} (hh : 2 ≤ height) (hmax : height ≤ maxInt)
    (hy : y < height - 1) : 0 < threshQ height y := by
  obtain ⟨c0, c1, c2⟩ := roundQ_cast_bounds (show 0 ≤ height - 1 by omega)
    (show height - 1 ≤ maxInt by omega)
  have c3 : 1 ≤ roundQ ((height - 1 : Int) : ℚ) := c2 (by omega)
  have a1 : 1 ≤ roundQ ((height - y - 1 : Int) : ℚ) := by
    have h1 : (1 : ℚ) ≤ ((height - y - 1 : Int) : ℚ) := by exact_mod_cast (show 1 ≤ height - y - 1 by omega)
    have := roundQ_mono h1
    rwa [roundQ_one] at this
  have b1 : 100 ≤ roundQ (roundQ ((height - y - 1 : Int) : ℚ) * 100) := by
    have h1 : (100 : ℚ) ≤ roundQ ((height - y - 1 : Int) : ℚ) * 100 := by linarith
    have := roundQ_mono h1
    rwa [roundQ_ofNat 100 (by norm_num)] at this
  have hsmall : roundQ ((1 : ℕ) * (2 : ℚ) ^ (-60 : ℤ)) = (1 : ℕ) * (2 : ℚ) ^ (-60 : ℤ) :=
    roundQ_dyadic 1 (-60) (by norm_num) (by norm_num)
  have hq : ((1 : ℕ) : ℚ) * (2 : ℚ) ^ (-60 : ℤ)
      ≤ roundQ (roundQ ((height - y - 1 : Int) : ℚ) * 100) / roundQ ((height - 1 : Int) : ℚ) := by
    rw [le_div_iff₀ (by linarith)]
    have e : ((1 : ℕ) : ℚ) * (2 : ℚ) ^ (-60 : ℤ) * 2 ^ 63 = 8 := by norm_num
    have : ((1 : ℕ) : ℚ) * (2 : ℚ) ^ (-60 : ℤ) * roundQ ((height - 1 : Int) : ℚ)
        ≤ ((1 : ℕ) : ℚ) * (2 : ℚ) ^ (-60 : ℤ) * 2 ^ 63 :=
      mul_le_mul_of_nonneg_left c1 (by positivity)
    linarith
  have := roundQ_mono hq
  rw [hsmall] at this
  unfold threshQ
  have hpos : (0 : ℚ) < ((1 : ℕ) : ℚ) * (2 : ℚ) ^ (-60 : ℤ) := by positivity
  linarith

/-! ## Colour bands -/

theorem le_eq_not_gt {p : Float64} (hp : p ≠ Float64.nan) (c : ℚ) :
    Float64.le p (Float64.fin c) = !Float64.gt p (Float64.fin c) := by
  cases p with
  | nan => exact absurd rfl hp
  | ninf => simp [Float64.le, Float64.ge, Float64.gt]
  | pinf => simp [Float64.le, Float64.ge, Float64.gt]
  | fin a =>
    simp only [Float64.le, Float64.ge, Float64.gt]
    by_cases h : c < a
    · simp [h, not_le.mpr h]
    · simp [h, not_lt.mp h]

theorem gt_fin_trans {p : Float64} {c d : ℚ} (hcd : c ≤ d)
    (h : Float64.gt p (Float64.fin d) = true) : Float64.gt p (Float64.fin c) = true := by
  cases p with
  | nan => simp [Float64.gt] at h
  | ninf => simp [Float64.gt] at h
  | pinf => simp [Float64.gt]
  | fin a =>
    simp only [Float64.gt, decide_eq_true_eq] at h ⊢
    linarith

theorem termbox_wellFormed : termbox.WellFormed := by
  unfold Gocui.WellFormed termbox
  decide

theorem colorCode_red {g : Gocui} (hg : g.WellFormed) :
    colorCode g (g.ColorRed ||| g.AttrBold) = 31 := by
  obtain ⟨hr, hy, hgr, hb, n1, n2, n3⟩ := hg
  unfold colorCode
  rw [mask_or_bold hr hb, if_pos rfl]

theorem colorCode_yellow {g : Gocui} (hg : g.WellFormed) :
    colorCode g (g.ColorYellow ||| g.AttrBold) = 33 := by
  obtain ⟨hr, hy, hgr, hb, n1, n2, n3⟩ := hg
  unfold colorCode
  rw [mask_or_bold hy hb, if_neg (Ne.symm n1), if_pos rfl]

theorem colorCode_green {g : Gocui} (hg : g.WellFormed) :
    colorCode g (g.ColorGreen ||| g.AttrBold) = 32 := by
  obtain ⟨hr, hy, hgr, hb, n1, n2, n3⟩ := hg
  unfold colorCode
  rw [mask_or_bold hgr hb, if_neg (Ne.symm n2), if_neg (Ne.symm n3), if_pos rfl]

/-- The three branches of the `switch` of `getColorBar`. -/
theorem bandColor_cases (g : Gocui) (p : Float64) :
    (Float64.gt p (Float64.fin 80) = true ∧ bandColor g p = g.ColorRed ||| g.AttrBold) ∨
    (Float64.gt p (Float64.fin 80) = false ∧ Float64.gt p (Float64.fin 50) = true ∧
      bandColor g p = g.ColorYellow ||| g.AttrBold) ∨
    (Float64.gt p (Float64.fin 80) = false ∧ Float64.gt p (Float64.fin 50) = false ∧
      bandColor g p = g.ColorGreen ||| g.AttrBold) := by
  unfold bandColor
  cases h80 : Float64.gt p (Float64.fin 80) <;> cases h50 : Float64.gt p (Float64.fin 50) <;> simp

theorem bandColor_eq_iff_code {g : Gocui} (hg : g.WellFormed) (p : Float64) :
    (bandColor g p = g.ColorRed ||| g.AttrBold ↔ colorCode g (bandColor g p) = 31) ∧
    (bandColor g p = g.ColorYellow ||| g.AttrBold ↔ colorCode g (bandColor g p) = 33) ∧
    (bandColor g p = g.ColorGreen ||| g.AttrBold ↔ colorCode g (bandColor g p) = 32) := by
  have cr := colorCode_red hg
  have cy := colorCode_yellow hg
  have cg := colorCode_green hg
  have hRY : g.ColorRed ||| g.AttrBold ≠ g.ColorYellow ||| g.AttrBold := by
    intro h; have := congrArg (colorCode g) h; rw [cr, cy] at this; omega
  have hRG : g.ColorRed ||| g.AttrBold ≠ g.ColorGreen ||| g.AttrBold := by
    intro h; have := congrArg (colorCode g) h; rw [cr, cg] at this; omega
  have hYG : g.ColorYellow ||| g.AttrBold ≠ g.ColorGreen ||| g.AttrBold := by
    intro h; have := congrArg (colorCode g) h; rw [cy, cg] at this; omega
  rcases bandColor_cases g p with ⟨-, hb⟩ | ⟨-, -, hb⟩ | ⟨-, -, hb⟩
  · rw [hb, cr]; simp [hRY, hRG]
  · rw [hb, cy]; simp [hRY.symm, hYG]
  · rw [hb, cg]; simp [hRG.symm, hYG.symm]

theorem ofLit_fin_of_dyadic (n : ℕ) (hn : n < 2 ^ 53) :
    Float64.ofLit (n : ℚ) = Float64.fin (n : ℚ) := by
  unfold Float64.ofLit
  have hle : (n : ℚ) ≤ 2 ^ 53 := by exact_mod_cast hn.le
  rw [round64_eq_fin 53 (by norm_num) (Nat.cast_nonneg n) hle, roundQ_natCast n hn]

/-- A decimal constant between two representable values rounds between them. -/
theorem ofLit_between (q : ℚ) (m : ℕ) (k : ℤ) (n : ℕ) (hm : m < 2 ^ 53) (hk : -1074 ≤ k)
    (hn : n < 2 ^ 53) (h0 : 0 ≤ q) (hlo : (m : ℚ) * 2 ^ k ≤ q) (hhi : q ≤ n) :
    ∃ r : ℚ, Float64.ofLit q = Float64.fin r ∧ (m : ℚ) * 2 ^ k ≤ r ∧ r ≤ n := by
  have hle : (n : ℚ) ≤ 2 ^ 53 := by exact_mod_cast hn.le
  refine ⟨roundQ q, ?_, ?_, ?_⟩
  · unfold Float64.ofLit
    exact round64_eq_fin 53 (by norm_num) h0 (le_trans hhi hle)
  · have := roundQ_mono hlo
    rwa [roundQ_dyadic m k hm hk] at this
  · have := roundQ_mono hhi
    rwa [roundQ_natCast n hn] at this

theorem bandColor_lit_8001 (g : Gocui) :
    bandColor g (Float64.ofLit (8001 / 100)) = g.ColorRed ||| g.AttrBold := by
  obtain ⟨r, hr, h1, h2⟩ := ofLit_between (8001 / 100) 10241 (-7) 81 (by norm_num) (by norm_num)
    (by norm_num) (by norm_num) (by norm_num) (by norm_num)
  have h80 : (80 : ℚ) < r := lt_of_lt_of_le (by norm_num) h1
  rw [hr]
  unfold bandColor
  rw [if_pos (by simp only [Float64.gt, decide_eq_true_eq]; exact h80)]

theorem bandColor_lit_5001 (g : Gocui) :
    bandColor g (Float64.ofLit (5001 / 100)) = g.ColorYellow ||| g.AttrBold := by
  obtain ⟨r, hr, h1, h2⟩ := ofLit_between (5001 / 100) 6401 (-7) 51 (by norm_num) (by norm_num)
    (by norm_num) (by norm_num) (by norm_num) (by norm_num)
  have h50 : (50 : ℚ) < r := lt_of_lt_of_le (by norm_num) h1
  have h51 : r ≤ 51 := by simpa using h2
  rw [hr]
  unfold bandColor
  rw [if_neg (by simp only [Float64.gt, decide_eq_true_eq]; intro h; linarith),
    if_pos (by simp only [Float64.gt, decide_eq_true_eq]; exact h50)]

theorem bandColor_lit_80 (g : Gocui) :
    bandColor g (Float64.ofLit 80) = g.ColorYellow ||| g.AttrBold := by
  have h := ofLit_fin_of_dyadic 80 (by norm_num)
  simp only [Nat.cast_ofNat] at h
  rw [h]
  norm_num [bandColor, Float64.gt]

theorem bandColor_lit_50 (g : Gocui) :
    bandColor g (Float64.ofLit 50) = g.ColorGreen ||| g.AttrBold := by
  have h := ofLit_fin_of_dyadic 50 (by norm_num)
  simp only [Nat.cast_ofNat] at h
  rw [h]
  norm_num [bandColor, Float64.gt]

/-! ## The chart: column values and comparisons -/

theorem histVal_of_neg (history : List Float64) (width x : Int)
    (h : (history.length : Int) - width + x < 0) : histVal history width x = Float64.fin 0 := by
  unfold histVal
  rw [dif_neg (by omega)]

theorem histVal_of_ge (history : List Float64) (width x : Int)
    (h : (history.length : Int) ≤ (history.length : Int) - width + x) :
    histVal history width x = Float64.fin 0 := by
  unfold histVal
  rw [dif_neg (by omega)]

theorem histVal_of_index (history : List Float64) (width x : Int) (i : Nat)
    (hidx : (history.length : Int) - width + x = i) (hi : i < history.length) :
    history[i]? = some (histVal history width x) := by
  unfold histVal
  rw [dif_pos (by omega)]
  have e : ((history.length : Int) - width + x).toNat = i := by omega
  rw [List.getElem?_eq_getElem hi, List.get_eq_getElem]
  simp only [e]

theorem ge_nan_right (v : Float64) : Float64.ge v Float64.nan = false := by
  cases v <;> rfl

theorem ge_fin_of_le {v : Float64} {t u : ℚ} (h : Float64.ge v (Float64.fin t) = true)
    (hut : u ≤ t) : Float64.ge v (Float64.fin u) = true := by
  cases v with
  | nan => simp [Float64.ge] at h
  | ninf => simp [Float64.ge] at h
  | pinf => simp [Float64.ge]
  | fin a =>
    simp only [Float64.ge, decide_eq_true_eq] at h ⊢
    linarith

theorem ge_of_le_left {a b t : Float64} (hab : Float64.le a b = true)
    (h : Float64.ge a t = true) : Float64.ge b t = true := by
  cases a <;> cases b <;> cases t <;>
    simp only [Float64.le, Float64.ge, decide_eq_true_eq] at hab h ⊢ <;>
    first | rfl | contradiction | linarith

theorem zero_ge_of_gt_zero {t : Float64} (h : Float64.gt t (Float64.fin 0) = true) :
    Float64.ge (Float64.fin 0) t = false := by
  cases t with
  | nan => rfl
  | ninf => simp [Float64.gt] at h
  | pinf => rfl
  | fin a =>
    simp only [Float64.gt, decide_eq_true_eq] at h
    simp only [Float64.ge, decide_eq_false_iff_not, not_le]
    exact h

theorem thresh_two_zero : thresh 2 0 = Float64.fin 100 := by
  rw [thresh_eq (by norm_num) (by unfold maxInt; norm_num) (by norm_num) (by norm_num)]
  unfold threshQ
  norm_num [roundQ_one, roundQ_ofNat 100 (by norm_num)]

theorem thresh_two_one : thresh 2 1 = Float64.fin 0 := by
  rw [thresh_eq (by norm_num) (by unfold maxInt; norm_num) (by norm_num) (by norm_num)]
  unfold threshQ
  norm_num [roundQ_one, roundQ_zero]

theorem thresh_one_zero : thresh 1 0 = Float64.nan := by
  have h0 : Float64.ofInt 0 = Float64.fin 0 := by
    rw [ofInt_eq_fin le_rfl (by unfold maxInt; norm_num)]
    simp [roundQ_zero]
  have hm : Float64.mul (Float64.fin 0) (Float64.fin 100) = Float64.fin 0 := by
    simp only [Float64.mul]
    rw [round64_eq_fin 1 (by norm_num) (by norm_num) (by norm_num)]
    simp [roundQ_zero]
  unfold thresh
  rw [show (1 : Int) - 0 - 1 = 0 by norm_num, show (1 : Int) - 1 = 0 by norm_num, h0, hm]
  simp [Float64.div]

theorem roundQ_intCast {n : Int} (h0 : 0 ≤ n) (h : n < 2 ^ 53) : roundQ (n : ℚ) = n := by
  obtain ⟨m, rfl⟩ := Int.eq_ofNat_of_zero_le h0
  have := roundQ_natCast m (by exact_mod_cast h)
  simpa using this

/-- For heights up to `2^46` the conversions and the product are exact: the threshold is the
exact quotient `(height-y-1) * 100 / (height-1)` rounded once. -/
theorem thresh_exact {height y : Int} (hh : 2 ≤ height) (hs : height ≤ 2 ^ 46) (hy0 : 0 ≤ y)
    (hy : y < height) :
    thresh height y
      = Float64.fin (roundQ (((height - y - 1 : Int) : ℚ) * 100 / ((height - 1 : Int) : ℚ))) := by
  have e : ((height - y - 1 : Int) : ℚ) * 100 = (((height - y - 1) * 100 : Int) : ℚ) := by
    push_cast; ring
  rw [thresh_eq hh (by unfold maxInt; omega) hy0 hy]
  unfold threshQ
  rw [roundQ_intCast (show 0 ≤ height - y - 1 by omega) (by omega),
    roundQ_intCast (show 0 ≤ height - 1 by omega) (by omega), e,
    roundQ_intCast (show 0 ≤ (height - y - 1) * 100 by omega) (by omega)]

theorem bandColor_nan (g : Gocui) : bandColor g Float64.nan = g.ColorGreen ||| g.AttrBold := by
  simp [bandColor, Float64.gt]

/-! ## The chart: the worked example and the single-row chart -/

theorem example_vals :
    histVal [Float64.fin 0, Float64.fin 100] 2 0 = Float64.fin 0 ∧
    histVal [Float64.fin 0, Float64.fin 100] 2 1 = Float64.fin 100 := by
  have h0 := histVal_of_index [Float64.fin 0, Float64.fin 100] 2 0 0 (by norm_num) (by norm_num)
  have h1 := histVal_of_index [Float64.fin 0, Float64.fin 100] 2 1 1 (by norm_num) (by norm_num)
  simp only [List.getElem?_cons_zero, List.getElem?_cons_succ, Option.some.injEq] at h0 h1
  exact ⟨h0.symm, h1.symm⟩

theorem example_rows :
    renderLines [Float64.fin 0, Float64.fin 100] 2 2 = [" █", "██"] := by
  obtain ⟨v0, v1⟩ := example_vals
  have r0 : renderRow [Float64.fin 0, Float64.fin 100] 2 2 0 = " █" := by
    apply String.ext
    rw [renderRow_data]
    have c0 : cellOn [Float64.fin 0, Float64.fin 100] 2 2 0 0 = false := by
      unfold cellOn; rw [v0, thresh_two_zero]; norm_num [Float64.ge]
    have c1 : cellOn [Float64.fin 0, Float64.fin 100] 2 2 0 1 = true := by
      unfold cellOn; rw [v1, thresh_two_zero]; norm_num [Float64.ge]
    simp [List.range_succ, c0, c1]
  have r1 : renderRow [Float64.fin 0, Float64.fin 100] 2 2 1 = "██" := by
    apply String.ext
    rw [renderRow_data]
    have c0 : cellOn [Float64.fin 0, Float64.fin 100] 2 2 1 0 = true := by
      unfold cellOn; rw [v0, thresh_two_one]; norm_num [Float64.ge]
    have c1 : cellOn [Float64.fin 0, Float64.fin 100] 2 2 1 1 = true := by
      unfold cellOn; rw [v1, thresh_two_one]; norm_num [Float64.ge]
    simp [List.range_succ, c0, c1]
  unfold renderLines
  simp [List.range_succ, r0, r1]

theorem cellOn_height_one (history : List Float64) (width x : Int) :
    cellOn history width 1 0 x = false := by
  unfold cellOn
  rw [thresh_one_zero, ge_nan_right]

theorem renderLines_height_one (history : List Float64) (width : Int) :
    renderLines history width 1 = [String.mk (List.replicate width.toNat ' ')] := by
  have hr : renderRow history width 1 0 = String.mk (List.replicate width.toNat ' ') := by
    apply String.ext
    rw [renderRow_data]
    simp only [cellOn_height_one, Bool.false_eq_true, if_false]
    rw [List.map_const', List.length_range]
  unfold renderLines
  simp [List.range_succ, hr]

/-! ## The chart: a column that is lit from the top row -/

theorem single_sample_vals :
    histVal [Float64.fin 100] 3 0 = Float64.fin 0 ∧
    histVal [Float64.fin 100] 3 2 = Float64.fin 100 := by
  have h0 := histVal_of_neg [Float64.fin 100] 3 0 (by norm_num)
  have h2 := histVal_of_index [Float64.fin 100] 3 2 0 (by norm_num) (by norm_num)
  simp only [List.getElem?_cons_zero, Option.some.injEq] at h2
  exact ⟨h0, h2.symm⟩

theorem thresh_four_zero : thresh 4 0 = Float64.fin 100 := by
  rw [thresh_exact (by norm_num) (by norm_num) (by norm_num) (by norm_num)]
  norm_num [roundQ_ofNat 100 (by norm_num)]

theorem single_sample_top_cell :
    glyphAt (renderLines [Float64.fin 100] 3 4) 0 2 = some '█' := by
  rw [glyphAt_on_iff [Float64.fin 100] 3 4 (by decide) (by decide)]
  unfold cellOn
  have hv := single_sample_vals.2
  have ht := thresh_four_zero
  simp only [Nat.cast_zero, Nat.cast_ofNat] at hv ht ⊢
  rw [hv, ht]
  simp [Float64.ge]

theorem single_sample_le :
    Float64.le (histVal [Float64.fin 100] 3 ((0 : Nat) : Int))
      (histVal [Float64.fin 100] 3 ((2 : Nat) : Int)) = true := by
  have h0 := single_sample_vals.1
  have h2 := single_sample_vals.2
  simp only [Nat.cast_zero, Nat.cast_ofNat] at h0 h2 ⊢
  rw [h0, h2]
  norm_num [Float64.le, Float64.ge]

/-! ## The claims -/

/-- C1: starting from an empty `cpuUsageHistory`, after any sequence of `N` ticks the history
is the last `min N 76` sampled CPU values in their original order, oldest first; its length
is `min N 76`, hence never more than `graphWidth = 76` and exactly 76 once `N > 76`. -/
theorem C1_history_sliding_window (s : State) (rs : List RandDraws)
    (h : s.cpuUsageHistory = []) :
    graphWidth = 76 ∧
    (rs.foldl updateData s).cpuUsageHistory
      = (rs.map cpuSample).drop (rs.length - min rs.length graphWidth) ∧
    (rs.foldl updateData s).cpuUsageHistory.length = min rs.length graphWidth ∧
    (rs.foldl updateData s).cpuUsageHistory.length ≤ graphWidth ∧
    (graphWidth < rs.length → (rs.foldl updateData s).cpuUsageHistory.length = graphWidth) := by
  have hW : graphWidth = 76 := rfl
  have key := history_foldl rs s h
  have e : (rs.map cpuSample).length - graphWidth = rs.length - min rs.length graphWidth := by
    rw [List.length_map]; omega
  rw [e] at key
  have hl : (rs.foldl updateData s).cpuUsageHistory.length = min rs.length graphWidth := by
    rw [key, List.length_drop, List.length_map]; omega
  exact ⟨hW, key, hl, by omega, by omega⟩

theorem C1_history_sliding_window_witness :
    initState.cpuUsageHistory = [] ∧
    (([] : List RandDraws).foldl updateData initState).cpuUsageHistory.length
      = min ([] : List RandDraws).length graphWidth :=
  ⟨rfl, (C1_history_sliding_window initState [] rfl).2.2.1⟩

/-- C8: after one `updateData` from any prior state, `cpuUsageHistory` is non-empty and its
last element is the `cpuUsage` sampled in that tick, whether or not the oldest element was
evicted; the other variables hold exactly the values sampled in that tick. -/
theorem C8_tick_latest (s : State) (r : RandDraws) :
    (updateData s r).cpuUsageHistory ≠ [] ∧
    (updateData s r).cpuUsageHistory.getLast? = some (updateData s r).cpuUsage ∧
    (updateData s r).cpuUsage = Float64.mul r.cpu (Float64.fin 100) ∧
    (updateData s r).memoryUsage = Float64.mul r.memory (Float64.fin 100) ∧
    (updateData s r).diskUsage = Float64.mul r.disk (Float64.fin 100) ∧
    (updateData s r).networkIn = r.netIn ∧
    (updateData s r).networkOut = r.netOut ∧
    (updateData s r).processList.map (fun p => (p.PID, p.Name, p.Status))
      = [(1, "docker", "Running"), (123, "go-app", "Running"), (456, "nginx", "Running"),
         (789, "db-server", "Running")] ∧
    (updateData s r).processList.map (fun p => (p.CPU, p.Memory))
      = [(Float64.mul r.dockerCPU (Float64.fin (1 / 2)), Float64.mul r.dockerMem (Float64.fin 1)),
         (Float64.mul r.goAppCPU (Float64.fin 15), Float64.mul r.goAppMem (Float64.fin 5)),
         (Float64.mul r.nginxCPU (Float64.fin 2), Float64.mul r.nginxMem (Float64.fin (3 / 2))),
         (Float64.mul r.dbCPU (Float64.fin 10), Float64.mul r.dbMem (Float64.fin 8))] := by
  have hlast : (updateData s r).cpuUsageHistory.getLast? = some (updateData s r).cpuUsage :=
    appendHistory_getLast s.cpuUsageHistory (cpuSample r)
  refine ⟨?_, hlast, rfl, rfl, rfl, rfl, rfl, rfl, rfl⟩
  intro hnil
  rw [hnil] at hlast
  simp at hlast

/-- C2, refuted as stated: at `percentage = 200` nothing clamps `filled`; it is `20`, above
`barLen`, so the second repeat count `barLen - filled` is `-10`, `strings.Repeat` panics and
no bar is built. -/
theorem C2_no_clamp_counterexample :
    filledCells indefAmd64 (Float64.fin 200) = 20 ∧
    ¬ (filledCells indefAmd64 (Float64.fin 200) ≤ barLen) ∧
    barLen - filledCells indefAmd64 (Float64.fin 200) = -10 ∧
    stringsRepeat " " (barLen - filledCells indefAmd64 (Float64.fin 200)) = none ∧
    colorBar (filledCells indefAmd64 (Float64.fin 200)) = none ∧
    getColorBar termbox indefAmd64 (Float64.fin 200) = none := by
  have h := filledCells_two_hundred indefAmd64
  have hr : stringsRepeat " " (barLen - 20) = none := stringsRepeat_neg _ _ (by decide)
  have hc : colorBar 20 = none := by
    unfold colorBar
    rw [hr]
    cases stringsRepeat "█" 20 <;> rfl
  refine ⟨h, ?_, ?_, ?_, ?_, ?_⟩
  · rw [h]; decide
  · rw [h]; decide
  · rw [h]; exact hr
  · rw [h]; exact hc
  · unfold getColorBar
    rw [h, hc]
    rfl

/-- C2, amended: for every percentage in `[0, 100]` the filled-cell count lies in
`[0, barLen]`, both repeat counts are non-negative, the bar is built without a panic and has
exactly `barLen = 10` glyphs.  (Nothing clamps a percentage outside that range.) -/
theorem C2_bar_in_range (g : Gocui) (indef : Float64 → Int) (p : Float64)
    (h0 : Float64.ge p (Float64.fin 0) = true) (h100 : Float64.le p (Float64.fin 100) = true) :
    0 ≤ filledCells indef p ∧ filledCells indef p ≤ barLen ∧
    0 ≤ barLen - filledCells indef p ∧
    ∃ bar : String, colorBar (filledCells indef p) = some bar ∧ (bar.length : Int) = barLen ∧
      getColorBar g indef p
        = some ("\x1b[38;5;" ++ toString (colorCode g (bandColor g p)) ++ "m" ++ bar ++ "\x1b[0m") := by
  obtain ⟨a, rfl, ha0, ha1⟩ := fin_of_between h0 h100
  have hb : barLen = 10 := rfl
  have f0 : 0 ≤ filledCells indef (Float64.fin a) := by
    have := filledCells_mono indef le_rfl ha0 (by linarith)
    rwa [filledCells_zero] at this
  have f1 : filledCells indef (Float64.fin a) ≤ barLen := by
    have := filledCells_mono indef ha0 ha1 (by norm_num)
    rwa [filledCells_hundred] at this
  refine ⟨f0, f1, by omega, _, colorBar_of_mem _ f0 f1, ?_, ?_⟩
  · rw [String.length]
    simp only [List.length_append, List.length_replicate]
    omega
  · unfold getColorBar
    rw [colorBar_of_mem _ f0 f1]
    rfl

theorem C2_bar_in_range_witness :
    Float64.ge (Float64.fin 70) (Float64.fin 0) = true ∧
    Float64.le (Float64.fin 70) (Float64.fin 100) = true ∧
    filledCells indefAmd64 (Float64.fin 70) ≤ barLen :=
  ⟨by simp [Float64.ge], by simp [Float64.le, Float64.ge]; norm_num,
    (C2_bar_in_range termbox indefAmd64 (Float64.fin 70) (by simp [Float64.ge])
      (by simp [Float64.le, Float64.ge]; norm_num)).2.1⟩

/-- C3: for percentages `0 ≤ p ≤ q ≤ 100` the filled-cell count
`int(p / 100 * float64(10))` lies in `[0, 10]` and is non-decreasing (`filled p ≤ filled q`),
with `filled 0 = 0` and `filled 100 = 10`; the bar text is `filled p` full blocks followed by
`10 - filled p` blanks. -/
theorem C3_filled_range_monotone (indef : Float64 → Int) (p q : Float64)
    (hp : Float64.ge p (Float64.fin 0) = true) (hpq : Float64.le p q = true)
    (hq : Float64.le q (Float64.fin 100) = true) :
    filledCells indef p
      = Float64.toInt indef (Float64.mul (Float64.div p (Float64.fin 100)) (Float64.fin 10)) ∧
    0 ≤ filledCells indef p ∧ filledCells indef p ≤ 10 ∧
    0 ≤ filledCells indef q ∧ filledCells indef q ≤ 10 ∧
    filledCells indef p ≤ filledCells indef q ∧
    filledCells indef (Float64.fin 0) = 0 ∧ filledCells indef (Float64.fin 100) = 10 ∧
    colorBar (filledCells indef p)
      = some (String.mk (List.replicate (filledCells indef p).toNat '█'
          ++ List.replicate (10 - filledCells indef p).toNat ' ')) := by
  have hq0 : Float64.ge q (Float64.fin 0) = true := ge_of_le_left hpq hp
  obtain ⟨b, rfl, hb0, hb1⟩ := fin_of_between hq0 hq
  have hp1 : Float64.le p (Float64.fin 100) = true := by
    cases p with
    | nan => simp [Float64.ge] at hp
    | ninf => simp [Float64.ge] at hp
    | pinf => simp [Float64.le, Float64.ge] at hpq
    | fin a =>
      have := le_fin_iff.mp hpq
      exact le_fin_iff.mpr (le_trans this hb1)
  obtain ⟨a, rfl, ha0, ha1⟩ := fin_of_between hp hp1
  have hab : a ≤ b := le_fin_iff.mp hpq
  have m1 := filledCells_mono indef le_rfl ha0 (by linarith)
  have m2 := filledCells_mono indef ha0 hab (by linarith)
  have m3 := filledCells_mono indef hb0 hb1 (by norm_num)
  rw [filledCells_zero] at m1
  rw [filledCells_hundred] at m3
  refine ⟨?_, m1, by omega, by omega, m3, m2, filledCells_zero indef, filledCells_hundred indef, ?_⟩
  · unfold filledCells
    rw [ofInt_barLen]
  · exact colorBar_of_mem _ m1 (by unfold barLen; omega)

theorem C3_filled_range_monotone_witness :
    Float64.ge (Float64.fin 30) (Float64.fin 0) = true ∧
    Float64.le (Float64.fin 30) (Float64.fin 70) = true ∧
    Float64.le (Float64.fin 70) (Float64.fin 100) = true ∧
    filledCells indefAmd64 (Float64.fin 30) ≤ filledCells indefAmd64 (Float64.fin 70) :=
  ⟨by simp [Float64.ge], by simp [Float64.le, Float64.ge]; norm_num,
    by simp [Float64.le, Float64.ge]; norm_num,
    (C3_filled_range_monotone indefAmd64 (Float64.fin 30) (Float64.fin 70) (by simp [Float64.ge])
      (by simp [Float64.le, Float64.ge]; norm_num)
      (by simp [Float64.le, Float64.ge]; norm_num)).2.2.2.2.2.1⟩

/-- C4: for every percentage `p` (any `float64` that is a number) the colour chosen by
`getColorBar`, and the code `colorCode` gives for it, is red (31) iff `p > 80`, yellow (33)
iff `50 < p ≤ 80` and green (32) iff `p ≤ 50`; `80.0` is yellow, `80.01` red, `50.0` green,
`50.01` yellow, and `colorCode` never returns its default `0` for such a colour. -/
theorem C4_colour_bands (g : Gocui) (hg : g.WellFormed) (p : Float64) (hp : p ≠ Float64.nan) :
    (bandColor g p = g.ColorRed ||| g.AttrBold ↔ Float64.gt p (Float64.fin 80) = true) ∧
    (bandColor g p = g.ColorYellow ||| g.AttrBold
      ↔ Float64.gt p (Float64.fin 50) = true ∧ Float64.le p (Float64.fin 80) = true) ∧
    (bandColor g p = g.ColorGreen ||| g.AttrBold ↔ Float64.le p (Float64.fin 50) = true) ∧
    (colorCode g (bandColor g p) = 31 ↔ Float64.gt p (Float64.fin 80) = true) ∧
    (colorCode g (bandColor g p) = 33
      ↔ Float64.gt p (Float64.fin 50) = true ∧ Float64.le p (Float64.fin 80) = true) ∧
    (colorCode g (bandColor g p) = 32 ↔ Float64.le p (Float64.fin 50) = true) ∧
    colorCode g (bandColor g p) ≠ 0 ∧
    bandColor g (Float64.ofLit 80) = g.ColorYellow ||| g.AttrBold ∧
    bandColor g (Float64.ofLit (8001 / 100)) = g.ColorRed ||| g.AttrBold ∧
    bandColor g (Float64.ofLit 50) = g.ColorGreen ||| g.AttrBold ∧
    bandColor g (Float64.ofLit (5001 / 100)) = g.ColorYellow ||| g.AttrBold := by
  have cr := colorCode_red hg
  have cy := colorCode_yellow hg
  have cg := colorCode_green hg
  have l80 := le_eq_not_gt hp 80
  have l50 := le_eq_not_gt hp 50
  have codes : (colorCode g (bandColor g p) = 31 ↔ Float64.gt p (Float64.fin 80) = true) ∧
      (colorCode g (bandColor g p) = 33
        ↔ Float64.gt p (Float64.fin 50) = true ∧ Float64.le p (Float64.fin 80) = true) ∧
      (colorCode g (bandColor g p) = 32 ↔ Float64.le p (Float64.fin 50) = true) ∧
      colorCode g (bandColor g p) ≠ 0 := by
    rcases bandColor_cases g p with ⟨h80, hb⟩ | ⟨h80, h50, hb⟩ | ⟨h80, h50, hb⟩
    · have h50 : Float64.gt p (Float64.fin 50) = true := gt_fin_trans (by norm_num) h80
      rw [hb, cr, l80, l50, h80, h50]
      simp
    · rw [hb, cy, l80, l50, h80, h50]
      simp
    · rw [hb, cg, l80, l50, h80, h50]
      simp
  obtain ⟨c1, c2, c3, c4⟩ := codes
  obtain ⟨k1, k2, k3⟩ := bandColor_eq_iff_code hg p
  exact ⟨k1.trans c1, k2.trans c2, k3.trans c3, c1, c2, c3, c4,
    bandColor_lit_80 g, bandColor_lit_8001 g, bandColor_lit_50 g, bandColor_lit_5001 g⟩

theorem C4_colour_bands_witness :
    termbox.WellFormed ∧ Float64.fin 85 ≠ Float64.nan ∧
    colorCode termbox (bandColor termbox (Float64.fin 85)) ≠ 0 :=
  ⟨termbox_wellFormed, by decide,
    (C4_colour_bands termbox termbox_wellFormed (Float64.fin 85) (by decide)).2.2.2.2.2.2.1⟩

/-- C5: for every history, width `≥ 0` and height `≥ 2`, `renderGraph` joins exactly `height`
rows of exactly `width` glyphs; the glyph at row `y`, column `x` is the full block iff
`value x >= thresh y` (ties are ON) and a blank otherwise, where `thresh y` is
`float64(height-y-1) * 100 / float64(height-1)` (for heights up to `2^46`: the exact quotient
`(height-y-1) * 100 / (height-1)` rounded to `float64`) and `value x` is
`history[len(history) - width + x]` when that index is valid and `0` otherwise.  For
`history = [0, 100]`, `width = height = 2` the rows are `[OFF,ON]` and `[ON,ON]`. -/
theorem C5_renderGraph_grid (history : List Float64) (width height : Int)
    (hw : 0 ≤ width) (hh : 2 ≤ height) :
    renderGraph history width height
      = some (String.intercalate "\n" (renderLines history width height)) ∧
    ((renderLines history width height).length : Int) = height ∧
    (∀ y : Nat, (y : Int) < height →
      ∃ row : String, (renderLines history width height)[y]? = some row ∧
        (row.length : Int) = width) ∧
    (∀ y x : Nat, (y : Int) < height → (x : Int) < width →
      (glyphAt (renderLines history width height) y x = some '█'
        ↔ Float64.ge (histVal history width x) (thresh height y) = true) ∧
      (glyphAt (renderLines history width height) y x = some ' '
        ↔ Float64.ge (histVal history width x) (thresh height y) = false)) ∧
    (∀ (x : Int) (i : Nat), (history.length : Int) - width + x = i → i < history.length →
      history[i]? = some (histVal history width x)) ∧
    (∀ x : Int, ((history.length : Int) - width + x < 0 ∨
        (history.length : Int) ≤ (history.length : Int) - width + x) →
      histVal history width x = Float64.fin 0) ∧
    (height ≤ 2 ^ 46 → ∀ y : Nat, (y : Int) < height →
      thresh height y
        = Float64.fin (roundQ (((height - y - 1 : Int) : ℚ) * 100 / ((height - 1 : Int) : ℚ)))) ∧
    renderLines [Float64.fin 0, Float64.fin 100] 2 2 = [" █", "██"] ∧
    renderGraph [Float64.fin 0, Float64.fin 100] 2 2 = some " █\n██" := by
  refine ⟨?_, ?_, ?_, ?_, ?_, ?_, ?_, example_rows, ?_⟩
  · unfold renderGraph
    rw [if_neg (by omega)]
  · rw [renderLines_length]; omega
  · intro y hy
    refine ⟨_, renderLines_get history width height (by omega), ?_⟩
    rw [renderRow_length]; omega
  · intro y x hy hx
    exact ⟨glyphAt_on_iff history width height (by omega) (by omega),
      glyphAt_off_iff history width height (by omega) (by omega)⟩
  · intro x i hidx hi
    exact histVal_of_index history width x i hidx hi
  · intro x hx
    rcases hx with hx | hx
    · exact histVal_of_neg history width x hx
    · exact histVal_of_ge history width x hx
  · intro hs y hy
    exact thresh_exact hh hs (by omega) hy
  · unfold renderGraph
    rw [if_neg (by norm_num), example_rows]
    rfl

theorem C5_renderGraph_grid_witness :
    (0 : Int) ≤ 3 ∧ (2 : Int) ≤ 4 ∧
    ((renderLines [Float64.fin 30, Float64.fin 100] 3 4).length : Int) = 4 :=
  ⟨by decide, by decide,
    (C5_renderGraph_grid [Float64.fin 30, Float64.fin 100] 3 4 (by decide) (by decide)).2.1⟩

/-- C7, refuted as stated: with `height = 1` the divisor `float64(height-1)` is zero and the
division `0 / 0` is carried out; the threshold is NaN, so no constant threshold decides the
row: no number `t` makes the cell ON exactly for the values `v ≥ t`. -/
theorem C7_height_one_counterexample :
    Float64.ofInt ((1 : Int) - 1) = Float64.fin 0 ∧
    thresh 1 0 = Float64.div (Float64.fin 0) (Float64.fin 0) ∧
    thresh 1 0 = Float64.nan ∧
    ¬ ∃ t : ℚ, ∀ v : ℚ, (cellOn [Float64.fin v] 1 1 0 0 = true ↔ t ≤ v) := by
  have h0 : Float64.ofInt ((1 : Int) - 1) = Float64.fin 0 := by
    rw [ofInt_eq_fin (by norm_num) (by unfold maxInt; norm_num)]
    simp [roundQ_zero]
  refine ⟨h0, ?_, thresh_one_zero, ?_⟩
  · rw [thresh_one_zero]; simp [Float64.div]
  · rintro ⟨t, ht⟩
    have := (ht t).mpr le_rfl
    rw [cellOn_height_one] at this
    exact Bool.false_ne_true this

/-- C7, amended: `renderGraph` has no special case for `height = 1`.  It evaluates
`float64(0) * 100 / float64(0)`, which in `float64` is NaN and does not panic; `val >= NaN`
is false for every value, so for every history and width the result is a single row of
`width` blanks. -/
theorem C7_height_one_blank_row (history : List Float64) (width : Int) :
    thresh 1 0 = Float64.nan ∧
    (∀ x : Int, cellOn history width 1 0 x = false) ∧
    renderLines history width 1 = [String.mk (List.replicate width.toNat ' ')] ∧
    renderGraph history width 1 = some (String.mk (List.replicate width.toNat ' ')) := by
  refine ⟨thresh_one_zero, cellOn_height_one history width, renderLines_height_one history width, ?_⟩
  unfold renderGraph
  rw [if_neg (by norm_num), renderLines_height_one]
  rfl

/-- C6: when `len(history) < width` (heights `2 ≤ height` in the `int` range), each of the
leftmost `width - len(history)` columns has value `0`; every row but the bottom one has a
threshold `> 0` (the bottom one has threshold `0`), and in every row with a threshold `> 0`
those padded columns are blank; the samples occupy the rightmost `len(history)` columns in
order: column `width - len(history) + i` shows `history[i]`. -/
theorem C6_left_padding (history : List Float64) (width height : Int)
    (hlen : (history.length : Int) < width) (hh : 2 ≤ height) (hmax : height ≤ maxInt) :
    (∀ x : Nat, (x : Int) < width - history.length →
      histVal history width x = Float64.fin 0) ∧
    (∀ y : Nat, (y : Int) < height - 1 →
      Float64.gt (thresh height y) (Float64.fin 0) = true) ∧
    thresh height (height - 1) = Float64.fin 0 ∧
    (∀ y x : Nat, (y : Int) < height → Float64.gt (thresh height y) (Float64.fin 0) = true →
      (x : Int) < width - history.length →
      glyphAt (renderLines history width height) y x = some ' ') ∧
    (∀ i : Nat, i < history.length →
      history[i]? = some (histVal history width (width - history.length + i))) ∧
    (∀ (y i : Nat) (v : Float64), (y : Int) < height → history[i]? = some v →
      (glyphAt (renderLines history width height) y (width - history.length + i).toNat
          = some '█'
        ↔ Float64.ge v (thresh height y) = true)) := by
  have pad : ∀ x : Nat, (x : Int) < width - history.length →
      histVal history width x = Float64.fin 0 := by
    intro x hx
    exact histVal_of_neg history width x (by omega)
  have smp : ∀ i : Nat, i < history.length →
      history[i]? = some (histVal history width (width - history.length + i)) := by
    intro i hi
    exact histVal_of_index history width _ i (by omega) hi
  refine ⟨pad, ?_, ?_, ?_, smp, ?_⟩
  · intro y hy
    rw [thresh_eq hh hmax (by omega) (by omega)]
    simp only [Float64.gt, decide_eq_true_eq]
    exact threshQ_pos hh hmax hy
  · rw [thresh_eq hh hmax (by omega) (by omega), threshQ_bottom]
  · intro y x hy hgt hx
    rw [glyphAt_off_iff history width height (by omega) (by omega)]
    unfold cellOn
    rw [pad x hx]
    exact zero_ge_of_gt_zero hgt
  · intro y i v hy hv
    have hi : i < history.length := by
      rcases Nat.lt_or_ge i history.length with h | h
      · exact h
      · rw [List.getElem?_eq_none h] at hv; exact absurd hv (by simp)
    have hcol := smp i hi
    rw [hv] at hcol
    have hval : histVal history width (width - history.length + i) = v :=
      (Option.some.inj hcol).symm
    have hcast : (((width - history.length + i).toNat : Nat) : Int) = width - history.length + i := by
      omega
    rw [glyphAt_on_iff history width height (by omega) (by omega)]
    unfold cellOn
    rw [hcast, hval]

theorem C6_left_padding_witness :
    ((([Float64.fin 30] : List Float64).length : Nat) : Int) < 3 ∧ (2 : Int) ≤ 4 ∧ (4 : Int) ≤ maxInt ∧
    thresh 4 (4 - 1) = Float64.fin 0 :=
  ⟨by decide, by decide, by decide,
    (C6_left_padding [Float64.fin 30] 3 4 (by decide) (by decide) (by decide)).2.2.1⟩

/-- C10: the chart is a filled area (heights `2 ≤ height` in the `int` range): when the cell
at row `y`, column `x` is ON, every cell below it in that column is ON; and when
`value x1 <= value x2`, column `x1` has at most as many ON cells as column `x2`. -/
theorem C10_filled_area (history : List Float64) (width height : Int)
    (hh : 2 ≤ height) (hmax : height ≤ maxInt) :
    (∀ x y y' : Nat, (x : Int) < width → y < y' → (y' : Int) < height →
      glyphAt (renderLines history width height) y x = some '█' →
      glyphAt (renderLines history width height) y' x = some '█') ∧
    (∀ x1 x2 : Nat, (x1 : Int) < width → (x2 : Int) < width →
      Float64.le (histVal history width x1) (histVal history width x2) = true →
      (List.range height.toNat).countP
          (fun y => decide (glyphAt (renderLines history width height) y x1 = some '█'))
        ≤ (List.range height.toNat).countP
          (fun y => decide (glyphAt (renderLines history width height) y x2 = some '█'))) := by
  constructor
  · intro x y y' hx hyy hy' hon
    rw [glyphAt_on_iff history width height (by omega) (by omega)] at hon ⊢
    unfold cellOn at hon ⊢
    rw [thresh_eq hh hmax (by omega) (by omega)] at hon ⊢
    exact ge_fin_of_le hon (threshQ_antitone (by omega) (by omega))
  · intro x1 x2 hx1 hx2 hle
    apply List.countP_mono_left
    intro y hy h1
    have hy' : y < height.toNat := List.mem_range.mp hy
    simp only [decide_eq_true_eq] at h1 ⊢
    rw [glyphAt_on_iff history width height hy' (by omega)] at h1 ⊢
    unfold cellOn at h1 ⊢
    exact ge_of_le_left hle h1

theorem C10_filled_area_witness :
    (2 : Int) ≤ 4 ∧ (4 : Int) ≤ maxInt ∧
    glyphAt (renderLines [Float64.fin 100] 3 4) 0 2 = some '█' ∧
    glyphAt (renderLines [Float64.fin 100] 3 4) 1 2 = some '█' ∧
    glyphAt (renderLines [Float64.fin 100] 3 4) 3 2 = some '█' ∧
    Float64.le (histVal [Float64.fin 100] 3 ((0 : Nat) : Int))
      (histVal [Float64.fin 100] 3 ((2 : Nat) : Int)) = true ∧
    (List.range (4 : Int).toNat).countP
        (fun y => decide (glyphAt (renderLines [Float64.fin 100] 3 4) y 0 = some '█'))
      ≤ (List.range (4 : Int).toNat).countP
        (fun y => decide (glyphAt (renderLines [Float64.fin 100] 3 4) y 2 = some '█')) :=
  ⟨by decide, by decide, single_sample_top_cell,
    (C10_filled_area [Float64.fin 100] 3 4 (by decide) (by decide)).1 2 0 1
      (by decide) (by decide) (by decide) single_sample_top_cell,
    (C10_filled_area [Float64.fin 100] 3 4 (by decide) (by decide)).1 2 0 3
      (by decide) (by decide) (by decide) single_sample_top_cell,
    single_sample_le,
    (C10_filled_area [Float64.fin 100] 3 4 (by decide) (by decide)).2 0 2
      (by decide) (by decide) single_sample_le⟩

end Dashboard
